import Mathlib

/-!
Verification of `src/PackWithRowOffset.cc` (fbgemm, `PackAWithRowOffset<uint8_t, int32_t>`).

The file shallowly embeds the packing routine: the element type `T = uint8_t`
becomes `Fin 256`, the source matrix pointer `smat_` becomes a function
`Nat → Fin 256` indexed by flat offset, the packed tile buffer and the
row-offset buffer become functions updated pointwise, and the loops of
`pack()` become structural recursions in the order the source executes them.
The AVX2 intrinsics of the direct branch are modelled lane-exactly:
`_mm256_maddubs_epi16` with its signed 16-bit saturation,
`_mm256_madd_epi16`, and `_mm256_add_epi32` with its 32-bit wraparound.
Scalar `int32_t` arithmetic (`row_sum`) is modelled over `Int`; signed
overflow is undefined behaviour in the source, so theorems about the sums
carry an explicit size bound under which no 32-bit quantity overflows.
-/

/-- The element type of the instantiations in the source: `uint8_t`. -/
abbrev U8 := Fin 256

/-- Packer fields fixed at construction that `pack()` reads: `trans_`,
`smat_`, `ld_`, `BaseType::brow_` (block row size R), `BaseType::bcol_`
(block column size C) and `row_interleave_B_`. -/
structure PackParams where
  trans : Bool
  smat : Nat → U8
  ld : Nat
  brow : Nat
  bcol : Nat
  rowInterleave : Nat

/-- `block_type_t`: the block descriptor passed to `pack()`. -/
structure BlockType where
  row_start : Nat
  row_size : Nat
  col_start : Nat
  col_size : Nat

/-- Mutable state of one `pack()` call: the packed tile buffer `out`
(`BaseType::getBuf()`, elements of type `T`) and the row-offset buffer
(`getRowOffsetBuffer()`, `int32_t` entries). -/
@[ext]
structure PackState where
  out : Nat → U8
  rob : Nat → Int

/-- Pointwise store into a buffer. -/
def upd {α : Type} (f : Nat → α) (i : Nat) (v : α) : Nat → α :=
  fun k => if k = i then v else f k

/-- The source element at flat offset `idx`, as the widened integer value the
sums use (`uint8_t` promoted). -/
def byte (p : PackParams) (idx : Nat) : Int :=
  ((p.smat idx : Nat) : Int)

/-- Signed 16-bit saturation, as performed by `_mm256_maddubs_epi16`. -/
def sat16 (x : Int) : Int := max (-32768) (min x 32767)

/-- One 16-bit lane of `_mm256_maddubs_epi16 a b`: the saturated sum of the
two adjacent unsigned-byte-times-signed-byte products. -/
def maddubsLane (a b : Nat → Int) (t : Nat) : Int :=
  sat16 (a (2 * t) * b (2 * t) + a (2 * t + 1) * b (2 * t + 1))

/-- One 32-bit lane of `_mm256_madd_epi16 x y`: the sum of the two adjacent
signed-16-bit products. -/
def maddLane (x y : Nat → Int) (k : Nat) : Int :=
  x (2 * k) * y (2 * k) + x (2 * k + 1) * y (2 * k + 1)

/-- Two's-complement wraparound of a signed 32-bit lane, as performed by
`_mm256_add_epi32`. -/
def wrap32 (x : Int) : Int := (x + 2 ^ 31) % 2 ^ 32 - 2 ^ 31

/-- 32-bit lane `k` of
`_mm256_madd_epi16(_mm256_maddubs_epi16(src_v, one_epi8_v), one_epi16_v)`
for chunk `c` of row `i`: the chunk is loaded at `smat_ + i * ld_ + j` with
`j = block.col_start + 32 * c`. -/
def chunkLane (p : PackParams) (b : BlockType) (i c k : Nat) : Int :=
  maddLane
    (maddubsLane (fun t => byte p (i * p.ld + (b.col_start + 32 * c) + t)) (fun _ => 1))
    (fun _ => 1) k

/-- Lane `k` of the accumulator `sum_v` after `n` iterations of the 32-wide
chunk loop of the direct branch (`sum_v = _mm256_add_epi32(sum_v, ...)`). -/
def sumVecLane (p : PackParams) (b : BlockType) (i : Nat) : Nat → Nat → Int
  | 0, _ => 0
  | n + 1, k => wrap32 (sumVecLane p b i n k + chunkLane p b i n k)

/-- The scalar remainder loop of the direct branch: `row_sum += smat_[i * ld_ + j]`
for `j` from `block.col_start + block.col_size / 32 * 32` to
`block.col_start + block.col_size`. -/
def scalarRemSum (p : PackParams) (b : BlockType) (i : Nat) : Int :=
  ∑ t ∈ Finset.range (b.col_size - b.col_size / 32 * 32),
    byte p (i * p.ld + (b.col_start + b.col_size / 32 * 32 + t))

/-- The final `row_sum` of the direct branch for source row `i`: the initial
value (`row_offset_buf[i - row_start]` when `col_start != 0`, else `0`), plus
the scalar remainder loop, plus the horizontal reduction of the eight 32-bit
lanes of `sum_v` after `col_size / 32` chunk iterations. -/
def dirRowSum (p : PackParams) (b : BlockType) (rob : Nat → Int) (i : Nat) : Int :=
  (if b.col_start ≠ 0 then rob (i - b.row_start) else 0)
    + scalarRemSum p b i
    + ∑ k ∈ Finset.range 8, sumVecLane p b i (b.col_size / 32) k

/-- The final `row_sum` of the transposed branch for source row `i`: the same
initial value plus the scalar accumulation of `smat_[i + ld_ * j]` over
`j` in `[col_start, col_start + col_size)`. -/
def trRowSum (p : PackParams) (b : BlockType) (rob : Nat → Int) (i : Nat) : Int :=
  (if b.col_start ≠ 0 then rob (i - b.row_start) else 0)
    + ∑ t ∈ Finset.range b.col_size, byte p (i + p.ld * (b.col_start + t))

/-- The value writes of the transposed branch for source row `i`: for
`j = col_start + n`, store `smat_[i + ld_ * j]` at
`out[(i - row_start) * bcol_ + (j - col_start)]`. -/
def trWriteRow (p : PackParams) (b : BlockType) (i : Nat) (out : Nat → U8) :
    Nat → (Nat → U8)
  | 0 => out
  | n + 1 =>
    upd (trWriteRow p b i out n) ((i - b.row_start) * p.bcol + n)
      (p.smat (i + p.ld * (b.col_start + n)))

/-- The `memcpy` of the direct branch for source row `i`: element `n` of the
copy stores `smat_[i * ld_ + col_start + n]` at `out[buf_idx * bcol_ + n]`. -/
def copyRow (p : PackParams) (b : BlockType) (i : Nat) (out : Nat → U8) :
    Nat → (Nat → U8)
  | 0 => out
  | n + 1 =>
    upd (copyRow p b i out n) ((i - b.row_start) * p.bcol + n)
      (p.smat (i * p.ld + (b.col_start + n)))

/-- The zero-fill loop of either branch: store `0` at
`out[bufIdx * bcol_ + (lo + t)]` for `t` below the iteration count. -/
def zeroFillRow (p : PackParams) (bufIdx lo : Nat) (out : Nat → U8) :
    Nat → (Nat → U8)
  | 0 => out
  | n + 1 => upd (zeroFillRow p bufIdx lo out n) (bufIdx * p.bcol + (lo + n)) 0

/-- Round `n` up to a multiple of `m`, as `(n + m - 1) / m * m` in the source. -/
def roundUp (n m : Nat) : Nat := (n + m - 1) / m * m

/-- `block_p.col_size`: the interleave-rounded column extent
`(block.col_size + row_interleave_B_ - 1) / row_interleave_B_ * row_interleave_B_`. -/
def packedColSize (p : PackParams) (b : BlockType) : Nat :=
  roundUp b.col_size p.rowInterleave

/-- One iteration of the transposed branch's row loop at source row `i`:
write the `col_size` values, store the row sum, zero-fill up to
`block_p.col_size`. -/
def packRowTr (p : PackParams) (b : BlockType) (i : Nat) (s : PackState) : PackState :=
  { out := zeroFillRow p (i - b.row_start) b.col_size
      (trWriteRow p b i s.out b.col_size) (packedColSize p b - b.col_size)
    rob := upd s.rob (i - b.row_start) (trRowSum p b s.rob i) }

/-- One iteration of the direct branch's row loop at source row `i`:
`memcpy` the `col_size` values, zero-fill up to `block_p.col_size`, compute
the vectorized row sum and store it. -/
def packRowDir (p : PackParams) (b : BlockType) (i : Nat) (s : PackState) : PackState :=
  { out := zeroFillRow p (i - b.row_start) b.col_size
      (copyRow p b i s.out b.col_size) (packedColSize p b - b.col_size)
    rob := upd s.rob (i - b.row_start) (dirRowSum p b s.rob i) }

/-- The row loop `for i in [row_start, row_start + n)`, applying the branch
body in increasing order of `i`. -/
def packRows (body : Nat → PackState → PackState) (rowStart : Nat) :
    Nat → PackState → PackState
  | 0, s => s
  | n + 1, s => body (rowStart + n) (packRows body rowStart n s)

/-- `PackAWithRowOffset::pack(block)`: dispatch on `trans_` and run the row
loop over `block.row_size` rows. -/
def pack (p : PackParams) (b : BlockType) (s : PackState) : PackState :=
  if p.trans then packRows (packRowTr p b) b.row_start b.row_size s
  else packRows (packRowDir p b) b.row_start b.row_size s

/-- The preconditions asserted at the top of `pack()`. -/
def packPre (p : PackParams) (b : BlockType) : Prop :=
  b.row_start % p.brow = 0 ∧ b.col_start % p.bcol = 0 ∧
    b.row_size ≤ p.brow ∧ b.col_size ≤ p.bcol

/-- The boolean conjunction of the four `assert`s at the top of `pack()`. -/
def packAssertsHold (p : PackParams) (b : BlockType) : Bool :=
  decide (b.row_start % p.brow = 0) && decide (b.col_start % p.bcol = 0) &&
    decide (b.row_size ≤ p.brow) && decide (b.col_size ≤ p.bcol)

/-- The `assert(G_ == 1 && ...)` check of the constructor. -/
def ctorGroupsAssertHolds (G : Nat) : Bool := G == 1

/-- The logical source-matrix element at row `r`, column `c`, exactly as the
two branches of `pack()` read it: the transposed branch reads
`smat_[r + ld_ * c]`, the direct branch reads `smat_[r * ld_ + c]`. -/
def srcElem (p : PackParams) (r c : Nat) : Int :=
  if p.trans then byte p (r + p.ld * c) else byte p (r * p.ld + c)

/-- `PackAWithRowOffset::addr(r, c)` over the packed grid, with the base
class geometry `R = blockRowSize()`, `C = blockColSize()`,
`blockCols = BaseType::blockCols()` passed explicitly. -/
def addr (R C blockCols : Nat) (r c : Nat) : Nat :=
  let block_row_id := r / R
  let brow_offset := (block_row_id * blockCols) * (R * C)
  let block_col_id := c / C
  let bcol_offset := block_col_id * R * C
  let block_offset := brow_offset + bcol_offset
  let inblock_offset := (r % R) * C + c % C
  block_offset + inblock_offset

/-- Abstract view of the external CPU feature detection library: the result
of `cpuinfo_initialize()`, `cpuinfo_has_x86_avx512f()` and
`cpuinfo_has_x86_avx2()`. -/
structure CpuInfo where
  initOk : Bool
  avx512f : Bool
  avx2 : Bool

/-- Outcome of `rowOffsetBufferSize()` / the constructor's capability
selection: return a value, die on `assert(0)`, or throw. -/
inductive QueryResult where
  | ret : Int → QueryResult
  | assertFail : QueryResult
  | thrown : QueryResult
deriving DecidableEq

/-- `PackAWithRowOffset::rowOffsetBufferSize()`: initialize cpuinfo (throw a
runtime error on failure), then probe AVX-512 before AVX2, returning the
corresponding `PackingTraits::MCB`; hit `assert(0)` when neither is
supported. The two `MCB` constants live in repository headers outside the
given source and are passed as parameters. -/
def rowOffsetBufferSize (cpu : CpuInfo) (mcb512 mcb2 : Int) : QueryResult :=
  if cpu.initOk then
    if cpu.avx512f then .ret mcb512
    else if cpu.avx2 then .ret mcb2
    else .assertFail
  else .thrown

/-- The capability selection of the constructor (lines 42-55): probe AVX-512
then AVX2 and adopt the matching blocking profile, or hit `assert(0)`.
The profile is summarized by its `MCB` value, like the size query. -/
def ctorSelect (cpu : CpuInfo) (mcb512 mcb2 : Int) : QueryResult :=
  if cpu.avx512f then .ret mcb512
  else if cpu.avx2 then .ret mcb2
  else .assertFail

/-- A concrete source matrix used to instantiate proved theorems. -/
def testMat : Nat → U8 := fun n => ⟨n % 256, Nat.mod_lt n (by omega)⟩

/-- A concrete all-zero starting state used to instantiate proved theorems. -/
def zeroState : PackState := { out := fun _ => 0, rob := fun _ => 0 }

/-- The chunked row-sum computation of the direct branch with zero initial
value: the scalar remainder loop plus the horizontal reduction of the eight
`sum_v` lanes after `col_size / 32` vectorized chunk iterations. -/
def chunkedRowSum (p : PackParams) (b : BlockType) (i : Nat) : Int :=
  scalarRemSum p b i + ∑ k ∈ Finset.range 8, sumVecLane p b i (b.col_size / 32) k

/-- The naive scalar reference sum of the `col_size` source elements of row
`i` read the way the direct branch addresses them. -/
def naiveRowSum (p : PackParams) (b : BlockType) (i : Nat) : Int :=
  ∑ t ∈ Finset.range b.col_size, byte p (i * p.ld + (b.col_start + t))

/-! ### Arithmetic helpers -/

/-- Uniqueness of Euclidean decomposition over `Nat`. -/
lemma euclid_unique (A q1 q2 x1 x2 : Nat) (hx1 : x1 < A) (hx2 : x2 < A)
    (h : q1 * A + x1 = q2 * A + x2) : q1 = q2 ∧ x1 = x2 := by
  have hA : 0 < A := lt_of_le_of_lt (Nat.zero_le x1) hx1
  have d1 : (q1 * A + x1) / A = q1 := by
    rw [Nat.mul_comm, Nat.mul_add_div hA, Nat.div_eq_of_lt hx1]
    omega
  have d2 : (q2 * A + x2) / A = q2 := by
    rw [Nat.mul_comm, Nat.mul_add_div hA, Nat.div_eq_of_lt hx2]
    omega
  have m1 : (q1 * A + x1) % A = x1 := by
    rw [Nat.mul_comm, Nat.mul_add_mod, Nat.mod_eq_of_lt hx1]
  have m2 : (q2 * A + x2) % A = x2 := by
    rw [Nat.mul_comm, Nat.mul_add_mod, Nat.mod_eq_of_lt hx2]
  refine ⟨?_, ?_⟩
  · rw [← d1, ← d2, h]
  · rw [← m1, ← m2, h]

/-- `addr` written as one Euclidean decomposition by the tile size `R * C`. -/
lemma addr_eq (R C bc r c : Nat) :
    addr R C bc r c = (r / R * bc + c / C) * (R * C) + ((r % R) * C + c % C) := by
  simp only [addr]
  ring

/-- The within-tile offset is below the tile size. -/
lemma inblock_lt (R C : Nat) (hR : 0 < R) (hC : 0 < C) (r c : Nat) :
    (r % R) * C + c % C < R * C := by
  have h1 : r % R < R := Nat.mod_lt _ hR
  have h2 : c % C < C := Nat.mod_lt _ hC
  calc (r % R) * C + c % C < (r % R) * C + C := by omega
    _ = (r % R + 1) * C := by ring
    _ ≤ R * C := Nat.mul_le_mul_right _ (by omega)

/-- Full inversion of the address mapping: equal addresses with in-range
column block indices force equal coordinates. -/
lemma addr_inj_aux (R C bc : Nat) (hR : 0 < R) (hC : 0 < C) (r1 c1 r2 c2 : Nat)
    (h1 : c1 / C < bc) (h2 : c2 / C < bc)
    (heq : addr R C bc r1 c1 = addr R C bc r2 c2) : r1 = r2 ∧ c1 = c2 := by
  rw [addr_eq, addr_eq] at heq
  have hout := euclid_unique (R * C) _ _ _ _
    (inblock_lt R C hR hC r1 c1) (inblock_lt R C hR hC r2 c2) heq
  have hin := euclid_unique C _ _ _ _
    (Nat.mod_lt c1 hC) (Nat.mod_lt c2 hC) hout.2
  have hblk := euclid_unique bc _ _ _ _ h1 h2 hout.1
  have hr : r1 = r2 := by
    rw [← Nat.div_add_mod r1 R, ← Nat.div_add_mod r2 R, hblk.1, hin.1]
  have hc : c1 = c2 := by
    rw [← Nat.div_add_mod c1 C, ← Nat.div_add_mod c2 C, hblk.2, hin.2]
  exact ⟨hr, hc⟩

/-! ### Claims C6, C7, C8 -/

/-- C6: `pack` checks its preconditions by assertion and the assertion branch
is unreachable exactly when they hold (alignment of `row_start`/`col_start`,
`row_size`/`col_size` within tile bounds), and the constructor's assertion
holds exactly when the group count is 1. -/
theorem c6_asserts_decide_preconditions (p : PackParams) (b : BlockType) (G : Nat) :
    (packAssertsHold p b = true ↔ packPre p b) ∧
      (ctorGroupsAssertHolds G = true ↔ G = 1) := by
  constructor
  · simp [packAssertsHold, packPre, and_assoc]
  · simp [ctorGroupsAssertHolds]

/-- C7: `rowOffsetBufferSize` throws exactly when cpuinfo initialization
fails; on success it returns the AVX-512 profile height when available,
otherwise the AVX2 one, and fatally asserts on an unsupported architecture;
the constructor's capability selection also ends in a fatal assertion, never
a throw, when no profile is supported. -/
theorem c7_size_query_error_policy (cpu : CpuInfo) (mcb512 mcb2 : Int) :
    (rowOffsetBufferSize cpu mcb512 mcb2 = .thrown ↔ cpu.initOk = false) ∧
      (cpu.initOk = true → cpu.avx512f = true →
        rowOffsetBufferSize cpu mcb512 mcb2 = .ret mcb512) ∧
      (cpu.initOk = true → cpu.avx512f = false → cpu.avx2 = true →
        rowOffsetBufferSize cpu mcb512 mcb2 = .ret mcb2) ∧
      (cpu.initOk = true → cpu.avx512f = false → cpu.avx2 = false →
        rowOffsetBufferSize cpu mcb512 mcb2 = .assertFail) ∧
      (cpu.avx512f = false → cpu.avx2 = false →
        ctorSelect cpu mcb512 mcb2 = .assertFail) ∧
      ctorSelect cpu mcb512 mcb2 ≠ .thrown := by
  obtain ⟨i, a5, a2⟩ := cpu
  cases i <;> cases a5 <;> cases a2 <;>
    simp [rowOffsetBufferSize, ctorSelect]

/-- Witness for C7 at a concrete feature vector. -/
theorem c7_size_query_error_policy_witness :
    rowOffsetBufferSize ⟨true, false, true⟩ 7 5 = .ret 5 :=
  (c7_size_query_error_policy ⟨true, false, true⟩ 7 5).2.2.1 rfl rfl rfl

/-- C8: the address mapper is injective over the full packed grid: distinct
in-bounds coordinate pairs map to distinct linear indices. -/
theorem c8_addr_injective (R C bc nPR nPC : Nat) (hR : 0 < R) (hC : 0 < C)
    (hcols : nPC ≤ bc * C) (r1 c1 r2 c2 : Nat)
    (hr1 : r1 < nPR) (hc1 : c1 < nPC) (hr2 : r2 < nPR) (hc2 : c2 < nPC)
    (hne : ¬(r1 = r2 ∧ c1 = c2)) :
    addr R C bc r1 c1 ≠ addr R C bc r2 c2 := by
  intro heq
  exact hne (addr_inj_aux R C bc hR hC r1 c1 r2 c2
    ((Nat.div_lt_iff_lt_mul hC).mpr (lt_of_lt_of_le hc1 hcols))
    ((Nat.div_lt_iff_lt_mul hC).mpr (lt_of_lt_of_le hc2 hcols)) heq)

/-- Witness for C8 at a concrete geometry and coordinate pair. -/
theorem c8_addr_injective_witness : addr 2 3 2 0 1 ≠ addr 2 3 2 1 1 :=
  c8_addr_injective 2 3 2 4 6 (by decide) (by decide) (by decide) 0 1 1 1
    (by decide) (by decide) (by decide) (by decide) (by decide)

/-! ### The chunked row sum of the direct branch equals the scalar reference sum -/

lemma byte_nonneg (p : PackParams) (idx : Nat) : 0 ≤ byte p idx := by
  simp [byte]

lemma byte_le (p : PackParams) (idx : Nat) : byte p idx ≤ 255 := by
  have h := (p.smat idx).isLt
  simp only [byte]
  omega

/-- Saturation is the identity inside the 16-bit range. -/
lemma sat16_eq {x : Int} (h1 : -32768 ≤ x) (h2 : x ≤ 32767) : sat16 x = x := by
  unfold sat16
  omega

/-- `maddubs` against all-ones never saturates on two byte values. -/
lemma sat16_byte2 (p : PackParams) (m n : Nat) :
    sat16 (byte p m + byte p n) = byte p m + byte p n := by
  have h1 := byte_nonneg p m
  have h2 := byte_le p m
  have h3 := byte_nonneg p n
  have h4 := byte_le p n
  unfold sat16
  omega

/-- A 32-bit lane of one chunk is the exact sum of its four bytes. -/
lemma chunkLane_eq (p : PackParams) (b : BlockType) (i c k : Nat) :
    chunkLane p b i c k =
      byte p (i * p.ld + (b.col_start + 32 * c) + 2 * (2 * k))
        + byte p (i * p.ld + (b.col_start + 32 * c) + (2 * (2 * k) + 1))
        + (byte p (i * p.ld + (b.col_start + 32 * c) + 2 * (2 * k + 1))
          + byte p (i * p.ld + (b.col_start + 32 * c) + (2 * (2 * k + 1) + 1))) := by
  simp only [chunkLane, maddLane, maddubsLane, mul_one]
  rw [sat16_byte2, sat16_byte2]

lemma chunkLane_bounds (p : PackParams) (b : BlockType) (i c k : Nat) :
    0 ≤ chunkLane p b i c k ∧ chunkLane p b i c k ≤ 1020 := by
  rw [chunkLane_eq]
  have a1 := byte_nonneg p (i * p.ld + (b.col_start + 32 * c) + 2 * (2 * k))
  have b1 := byte_le p (i * p.ld + (b.col_start + 32 * c) + 2 * (2 * k))
  have a2 := byte_nonneg p (i * p.ld + (b.col_start + 32 * c) + (2 * (2 * k) + 1))
  have b2 := byte_le p (i * p.ld + (b.col_start + 32 * c) + (2 * (2 * k) + 1))
  have a3 := byte_nonneg p (i * p.ld + (b.col_start + 32 * c) + 2 * (2 * k + 1))
  have b3 := byte_le p (i * p.ld + (b.col_start + 32 * c) + 2 * (2 * k + 1))
  have a4 := byte_nonneg p (i * p.ld + (b.col_start + 32 * c) + (2 * (2 * k + 1) + 1))
  have b4 := byte_le p (i * p.ld + (b.col_start + 32 * c) + (2 * (2 * k + 1) + 1))
  omega

lemma sum_chunkLane_bounds (p : PackParams) (b : BlockType) (i k : Nat) (n : Nat) :
    0 ≤ ∑ c ∈ Finset.range n, chunkLane p b i c k ∧
      ∑ c ∈ Finset.range n, chunkLane p b i c k ≤ 1020 * (n : Int) := by
  induction n with
  | zero => simp
  | succ m ih =>
    rw [Finset.sum_range_succ]
    have h := chunkLane_bounds p b i m k
    push_cast
    push_cast at ih
    omega

/-- 32-bit lane addition is exact inside the signed 32-bit range. -/
lemma wrap32_eq {x : Int} (h1 : -(2 ^ 31) ≤ x) (h2 : x < 2 ^ 31) : wrap32 x = x := by
  unfold wrap32
  rw [Int.emod_eq_of_lt (by omega) (by omega)]
  omega

/-- Under the chunk-count bound the `sum_v` accumulation never wraps: lane
`k` after `n` chunks is the exact sum of the `n` lane contributions. -/
lemma sumVecLane_eq_sum (p : PackParams) (b : BlockType) (i k : Nat) :
    ∀ n, n ≤ 2 ^ 21 →
      sumVecLane p b i n k = ∑ c ∈ Finset.range n, chunkLane p b i c k := by
  intro n
  induction n with
  | zero => intro _; simp [sumVecLane]
  | succ m ih =>
    intro hn
    have hs := sum_chunkLane_bounds p b i k m
    have hc := chunkLane_bounds p b i m k
    rw [Finset.sum_range_succ]
    simp only [sumVecLane]
    rw [ih (by omega)]
    apply wrap32_eq
    · omega
    · have h2 := hs.2
      have h3 := hc.2
      omega

/-- Summing the eight lanes of one chunk gives its 32 bytes. -/
lemma sum_chunkLane_eight (p : PackParams) (b : BlockType) (i c : Nat) :
    ∑ k ∈ Finset.range 8, chunkLane p b i c k
      = ∑ t ∈ Finset.range 32, byte p (i * p.ld + (b.col_start + (32 * c + t))) := by
  simp only [chunkLane_eq, Finset.sum_range_succ, Finset.sum_range_zero]
  norm_num
  ring_nf

/-- Concatenating `n` 32-byte chunk sums gives the sum over `32 * n` elements. -/
lemma sum_chunks (f : Nat → Int) (n : Nat) :
    ∑ c ∈ Finset.range n, ∑ t ∈ Finset.range 32, f (32 * c + t)
      = ∑ u ∈ Finset.range (32 * n), f u := by
  induction n with
  | zero => simp
  | succ m ih =>
    rw [Finset.sum_range_succ, ih, Nat.mul_succ, Finset.sum_range_add]

/-- The horizontal reduction of `sum_v` after `n` chunks is the exact sum of
the first `32 * n` source elements of the scanned range. -/
lemma lanes_total (p : PackParams) (b : BlockType) (i : Nat) (n : Nat)
    (hn : n ≤ 2 ^ 21) :
    ∑ k ∈ Finset.range 8, sumVecLane p b i n k
      = ∑ t ∈ Finset.range (32 * n), byte p (i * p.ld + (b.col_start + t)) := by
  calc ∑ k ∈ Finset.range 8, sumVecLane p b i n k
      = ∑ k ∈ Finset.range 8, ∑ c ∈ Finset.range n, chunkLane p b i c k :=
        Finset.sum_congr rfl fun k _ => sumVecLane_eq_sum p b i k n hn
    _ = ∑ c ∈ Finset.range n, ∑ k ∈ Finset.range 8, chunkLane p b i c k :=
        Finset.sum_comm
    _ = ∑ c ∈ Finset.range n, ∑ t ∈ Finset.range 32,
          byte p (i * p.ld + (b.col_start + (32 * c + t))) :=
        Finset.sum_congr rfl fun c _ => sum_chunkLane_eight p b i c
    _ = ∑ t ∈ Finset.range (32 * n), byte p (i * p.ld + (b.col_start + t)) :=
        sum_chunks (fun u => byte p (i * p.ld + (b.col_start + u))) n

/-- C4: the chunked row-sum computation of the direct branch — vectorized
accumulation over the largest multiple of 32 not exceeding `col_size`, a
scalar loop over the remainder, then a horizontal reduction of the eight
lanes — equals the naive scalar reference sum of the same `col_size` source
elements, for every `col_size` within the no-overflow bound. -/
theorem c4_chunked_sum_matches_naive (p : PackParams) (b : BlockType) (i : Nat)
    (h : b.col_size ≤ 2 ^ 26) : chunkedRowSum p b i = naiveRowSum p b i := by
  have hn : b.col_size / 32 ≤ 2 ^ 21 := by omega
  unfold chunkedRowSum naiveRowSum scalarRemSum
  rw [lanes_total p b i _ hn]
  obtain ⟨r, hr⟩ : ∃ r, b.col_size = 32 * (b.col_size / 32) + r :=
    ⟨b.col_size - 32 * (b.col_size / 32), by omega⟩
  have hrr : b.col_size - b.col_size / 32 * 32 = r := by omega
  rw [hrr]
  conv_rhs => rw [hr]
  rw [Finset.sum_range_add]
  have hidx : ∀ t ∈ Finset.range r,
      byte p (i * p.ld + (b.col_start + b.col_size / 32 * 32 + t))
        = byte p (i * p.ld + (b.col_start + (32 * (b.col_size / 32) + t))) := by
    intro t _
    congr 1
    omega
  rw [Finset.sum_congr rfl hidx]
  ring

/-- Witness for C4 at an exact multiple of the chunk width (`col_size = 32`)
and at one scalar remainder iteration (`col_size = 33`), with the sums
evaluated on a concrete matrix. -/
theorem c4_chunked_sum_matches_naive_witness :
    ((32 : Nat) ≤ 2 ^ 26 ∧
      chunkedRowSum ⟨false, testMat, 40, 4, 64, 4⟩ ⟨0, 1, 0, 32⟩ 1
        = naiveRowSum ⟨false, testMat, 40, 4, 64, 4⟩ ⟨0, 1, 0, 32⟩ 1) ∧
    ((33 : Nat) ≤ 2 ^ 26 ∧
      chunkedRowSum ⟨false, testMat, 40, 4, 64, 4⟩ ⟨0, 1, 0, 33⟩ 1
        = naiveRowSum ⟨false, testMat, 40, 4, 64, 4⟩ ⟨0, 1, 0, 33⟩ 1) ∧
    naiveRowSum ⟨false, testMat, 40, 4, 64, 4⟩ ⟨0, 1, 0, 33⟩ 1 = 1848 :=
  ⟨⟨by norm_num, c4_chunked_sum_matches_naive _ _ 1 (by norm_num)⟩,
    ⟨by norm_num, c4_chunked_sum_matches_naive _ _ 1 (by norm_num)⟩,
    by decide⟩

/-! ### Buffer write lemmas and row-loop characterization -/

lemma upd_same {α : Type} (f : Nat → α) (i : Nat) (v : α) : upd f i v i = v := by
  simp [upd]

lemma upd_ne {α : Type} (f : Nat → α) (i k : Nat) (v : α) (h : k ≠ i) :
    upd f i v k = f k := by
  simp [upd, h]

/-- The transposed row body updates the row-offset buffer at `i - row_start`
with the initial value plus the pure scalar sum of the row's range. -/
lemma packRowTr_rob_shape (p : PackParams) (b : BlockType) :
    ∀ i s, (packRowTr p b i s).rob = upd s.rob (i - b.row_start)
      ((if b.col_start ≠ 0 then s.rob (i - b.row_start) else 0)
        + ∑ t ∈ Finset.range b.col_size, byte p (i + p.ld * (b.col_start + t))) :=
  fun _ _ => rfl

/-- The direct row body updates the row-offset buffer at `i - row_start`
with the initial value plus the chunked sum of the row's range. -/
lemma packRowDir_rob_shape (p : PackParams) (b : BlockType) :
    ∀ i s, (packRowDir p b i s).rob = upd s.rob (i - b.row_start)
      ((if b.col_start ≠ 0 then s.rob (i - b.row_start) else 0)
        + (scalarRemSum p b i
          + ∑ k ∈ Finset.range 8, sumVecLane p b i (b.col_size / 32) k)) := by
  intro i s
  have h : dirRowSum p b s.rob i
      = (if b.col_start ≠ 0 then s.rob (i - b.row_start) else 0)
        + (scalarRemSum p b i
          + ∑ k ∈ Finset.range 8, sumVecLane p b i (b.col_size / 32) k) := by
    unfold dirRowSum
    ring
  show upd s.rob (i - b.row_start) (dirRowSum p b s.rob i) = _
  rw [h]

/-- Characterization of the row-offset buffer after the row loop: entry `q`
below the processed row count holds the initial value (the prior entry when
`col_start != 0`, zero otherwise) plus the pure row sum; entries at or above
it are untouched. -/
lemma packRows_rob (b : BlockType) (body : Nat → PackState → PackState)
    (g : Nat → Int)
    (hbody : ∀ i s, (body i s).rob = upd s.rob (i - b.row_start)
      ((if b.col_start ≠ 0 then s.rob (i - b.row_start) else 0) + g i)) :
    ∀ n s q, (packRows body b.row_start n s).rob q =
      if q < n then (if b.col_start ≠ 0 then s.rob q else 0) + g (b.row_start + q)
      else s.rob q := by
  intro n
  induction n with
  | zero =>
    intro s q
    simp [packRows]
  | succ m ih =>
    intro s q
    simp only [packRows]
    rw [hbody]
    have hsub : b.row_start + m - b.row_start = m := by omega
    rw [hsub]
    by_cases hqm : q = m
    · subst hqm
      rw [upd_same, ih]
      simp
    · rw [upd_ne _ _ _ _ hqm, ih]
      by_cases h2 : q < m
      · have h3 : q < m + 1 := by omega
        simp [h2, h3]
      · have h3 : ¬q < m + 1 := by omega
        simp [h2, h3]

/-- Distinct row stripes of the tile never alias. -/
lemma stripe_ne (bcol q1 q2 c1 c2 : Nat) (h1 : c1 < bcol) (h2 : c2 < bcol)
    (hq : q1 ≠ q2) : q1 * bcol + c1 ≠ q2 * bcol + c2 := by
  intro he
  exact hq (euclid_unique bcol q1 q2 c1 c2 h1 h2 he).1

lemma zeroFillRow_pres (p : PackParams) (bufIdx lo : Nat) (out : Nat → U8)
    (n idx : Nat) (h : ∀ t, t < n → idx ≠ bufIdx * p.bcol + (lo + t)) :
    zeroFillRow p bufIdx lo out n idx = out idx := by
  induction n with
  | zero => rfl
  | succ m ih =>
    simp only [zeroFillRow]
    rw [upd_ne _ _ _ _ (h m (by omega))]
    exact ih (fun t ht => h t (by omega))

lemma copyRow_pres (p : PackParams) (b : BlockType) (i : Nat) (out : Nat → U8)
    (n idx : Nat) (h : ∀ t, t < n → idx ≠ (i - b.row_start) * p.bcol + t) :
    copyRow p b i out n idx = out idx := by
  induction n with
  | zero => rfl
  | succ m ih =>
    simp only [copyRow]
    rw [upd_ne _ _ _ _ (h m (by omega))]
    exact ih (fun t ht => h t (by omega))

lemma trWriteRow_pres (p : PackParams) (b : BlockType) (i : Nat) (out : Nat → U8)
    (n idx : Nat) (h : ∀ t, t < n → idx ≠ (i - b.row_start) * p.bcol + t) :
    trWriteRow p b i out n idx = out idx := by
  induction n with
  | zero => rfl
  | succ m ih =>
    simp only [trWriteRow]
    rw [upd_ne _ _ _ _ (h m (by omega))]
    exact ih (fun t ht => h t (by omega))

/-- The direct row body writes only inside its own row stripe. -/
lemma packRowDir_out_pres (p : PackParams) (b : BlockType) (i : Nat)
    (s : PackState) (idx : Nat)
    (h : ∀ t, t < max b.col_size (packedColSize p b) →
      idx ≠ (i - b.row_start) * p.bcol + t) :
    (packRowDir p b i s).out idx = s.out idx := by
  show zeroFillRow p (i - b.row_start) b.col_size (copyRow p b i s.out b.col_size)
    (packedColSize p b - b.col_size) idx = s.out idx
  rw [zeroFillRow_pres p _ _ _ _ idx (fun t ht => h (b.col_size + t) (by omega))]
  exact copyRow_pres p b i s.out b.col_size idx (fun t ht => h t (by omega))

/-- The transposed row body writes only inside its own row stripe. -/
lemma packRowTr_out_pres (p : PackParams) (b : BlockType) (i : Nat)
    (s : PackState) (idx : Nat)
    (h : ∀ t, t < max b.col_size (packedColSize p b) →
      idx ≠ (i - b.row_start) * p.bcol + t) :
    (packRowTr p b i s).out idx = s.out idx := by
  show zeroFillRow p (i - b.row_start) b.col_size (trWriteRow p b i s.out b.col_size)
    (packedColSize p b - b.col_size) idx = s.out idx
  rw [zeroFillRow_pres p _ _ _ _ idx (fun t ht => h (b.col_size + t) (by omega))]
  exact trWriteRow_pres p b i s.out b.col_size idx (fun t ht => h t (by omega))

/-- Tile elements at or beyond the processed rows are untouched by the row
loop. -/
lemma packRows_out_pres (p : PackParams) (b : BlockType)
    (body : Nat → PackState → PackState)
    (hbody : ∀ i s idx, (∀ t, t < max b.col_size (packedColSize p b) →
      idx ≠ (i - b.row_start) * p.bcol + t) → (body i s).out idx = s.out idx)
    (hW : max b.col_size (packedColSize p b) ≤ p.bcol) :
    ∀ n, n ≤ b.row_size → ∀ s idx, b.row_size * p.bcol ≤ idx →
      (packRows body b.row_start n s).out idx = s.out idx := by
  intro n
  induction n with
  | zero =>
    intro _ s idx _
    rfl
  | succ m ih =>
    intro hm s idx hidx
    simp only [packRows]
    rw [hbody]
    · exact ih (by omega) s idx hidx
    · intro t ht
      have hsub : b.row_start + m - b.row_start = m := by omega
      rw [hsub]
      have h1 : t < p.bcol := lt_of_lt_of_le ht hW
      have h2 : m * p.bcol + t < b.row_size * p.bcol := by
        calc m * p.bcol + t < m * p.bcol + p.bcol := by omega
          _ = (m + 1) * p.bcol := by ring
          _ ≤ b.row_size * p.bcol := Nat.mul_le_mul_right _ (by omega)
      omega

/-- The tile contents produced by the row loop do not depend on the initial
row-offset buffer. -/
lemma packRows_out_indep (body : Nat → PackState → PackState) (rowStart : Nat)
    (hout : ∀ i o r1 r2, (body i ⟨o, r1⟩).out = (body i ⟨o, r2⟩).out) :
    ∀ n o r1 r2, (packRows body rowStart n ⟨o, r1⟩).out
      = (packRows body rowStart n ⟨o, r2⟩).out := by
  intro n
  induction n with
  | zero =>
    intro o r1 r2
    rfl
  | succ m ih =>
    intro o r1 r2
    simp only [packRows]
    have h1 := ih o r1 r2
    calc (body (rowStart + m) (packRows body rowStart m ⟨o, r1⟩)).out
        = (body (rowStart + m) ⟨(packRows body rowStart m ⟨o, r1⟩).out,
            (packRows body rowStart m ⟨o, r1⟩).rob⟩).out := rfl
      _ = (body (rowStart + m) ⟨(packRows body rowStart m ⟨o, r2⟩).out,
            (packRows body rowStart m ⟨o, r2⟩).rob⟩).out := by
          rw [h1]
          exact hout _ _ _ _
      _ = (body (rowStart + m) (packRows body rowStart m ⟨o, r2⟩)).out := rfl

/-- Hitting the zero-fill range produces an exact zero. -/
lemma zeroFillRow_hit (p : PackParams) (bufIdx lo : Nat) (out : Nat → U8)
    (n c : Nat) (h1 : lo ≤ c) (h2 : c < lo + n) :
    zeroFillRow p bufIdx lo out n (bufIdx * p.bcol + c) = 0 := by
  induction n with
  | zero => omega
  | succ m ih =>
    simp only [zeroFillRow]
    by_cases hc : c = lo + m
    · subst hc
      rw [upd_same]
    · rw [upd_ne _ _ _ _ (fun he => hc (Nat.add_left_cancel he))]
      exact ih (by omega)

/-- Rounding up to a divisor of the tile width keeps the result within it. -/
lemma roundUp_le_of_dvd (n m C : Nat) (hm : 0 < m) (hdvd : m ∣ C) (h : n ≤ C) :
    roundUp n m ≤ C := by
  obtain ⟨q, hq⟩ := hdvd
  have h1 : (n + m - 1) / m < q + 1 := by
    rw [Nat.div_lt_iff_lt_mul hm]
    have e : (q + 1) * m = m * q + m := by ring
    rw [e]
    omega
  unfold roundUp
  calc (n + m - 1) / m * m ≤ q * m := Nat.mul_le_mul_right _ (by omega)
    _ = C := by rw [hq, Nat.mul_comm]

/-- Row-offset entry produced by one `pack` call, in either layout mode: the
initial value (prior entry if `col_start != 0`, else zero) plus the exact sum
of the source elements of logical row `row_start + i` over columns
`[col_start, col_start + col_size)`. -/
lemma pack_rob_char (p : PackParams) (b : BlockType) (s : PackState) (i : Nat)
    (hsz : b.col_size ≤ 2 ^ 26) (hi : i < b.row_size) :
    (pack p b s).rob i
      = (if b.col_start ≠ 0 then s.rob i else 0)
        + ∑ t ∈ Finset.range b.col_size, srcElem p (b.row_start + i) (b.col_start + t) := by
  unfold pack
  cases hp : p.trans
  · rw [if_neg (by simp)]
    rw [packRows_rob b (packRowDir p b)
      (fun j => scalarRemSum p b j
        + ∑ k ∈ Finset.range 8, sumVecLane p b j (b.col_size / 32) k)
      (packRowDir_rob_shape p b) b.row_size s i, if_pos hi]
    have h4 := c4_chunked_sum_matches_naive p b (b.row_start + i) hsz
    unfold chunkedRowSum naiveRowSum at h4
    have hg : scalarRemSum p b (b.row_start + i)
        + ∑ k ∈ Finset.range 8, sumVecLane p b (b.row_start + i) (b.col_size / 32) k
        = ∑ t ∈ Finset.range b.col_size, srcElem p (b.row_start + i) (b.col_start + t) :=
      h4.trans (Finset.sum_congr rfl fun t _ => by simp [srcElem, hp])
    exact congrArg (fun z => (if b.col_start ≠ 0 then s.rob i else 0) + z) hg
  · rw [if_pos rfl]
    rw [packRows_rob b (packRowTr p b)
      (fun j => ∑ t ∈ Finset.range b.col_size, byte p (j + p.ld * (b.col_start + t)))
      (packRowTr_rob_shape p b) b.row_size s i, if_pos hi]
    have hg : ∑ t ∈ Finset.range b.col_size,
          byte p ((b.row_start + i) + p.ld * (b.col_start + t))
        = ∑ t ∈ Finset.range b.col_size, srcElem p (b.row_start + i) (b.col_start + t) :=
      Finset.sum_congr rfl fun t _ => by simp [srcElem, hp]
    exact congrArg (fun z => (if b.col_start ≠ 0 then s.rob i else 0) + z) hg

/-- The direct row body zeroes its padding range. -/
lemma packRowDir_out_zero (p : PackParams) (b : BlockType) :
    ∀ j s c, b.col_size ≤ c → c < packedColSize p b →
      (packRowDir p b j s).out ((j - b.row_start) * p.bcol + c) = 0 := by
  intro j s c h1 h2
  show zeroFillRow p (j - b.row_start) b.col_size (copyRow p b j s.out b.col_size)
    (packedColSize p b - b.col_size) ((j - b.row_start) * p.bcol + c) = 0
  exact zeroFillRow_hit p _ _ _ _ c h1 (by omega)

/-- The transposed row body zeroes its padding range. -/
lemma packRowTr_out_zero (p : PackParams) (b : BlockType) :
    ∀ j s c, b.col_size ≤ c → c < packedColSize p b →
      (packRowTr p b j s).out ((j - b.row_start) * p.bcol + c) = 0 := by
  intro j s c h1 h2
  show zeroFillRow p (j - b.row_start) b.col_size (trWriteRow p b j s.out b.col_size)
    (packedColSize p b - b.col_size) ((j - b.row_start) * p.bcol + c) = 0
  exact zeroFillRow_hit p _ _ _ _ c h1 (by omega)

/-- After processing strictly more rows than `i`, the padding entry of row
`i` stays zero: the row's own body zeroed it and later rows write disjoint
stripes. -/
lemma packRows_padding_zero (p : PackParams) (b : BlockType)
    (body : Nat → PackState → PackState)
    (hW : max b.col_size (packedColSize p b) ≤ p.bcol)
    (hbodyFrame : ∀ i s idx, (∀ t, t < max b.col_size (packedColSize p b) →
      idx ≠ (i - b.row_start) * p.bcol + t) → (body i s).out idx = s.out idx)
    (hbodyZero : ∀ j s c, b.col_size ≤ c → c < packedColSize p b →
      (body j s).out ((j - b.row_start) * p.bcol + c) = 0)
    (i c : Nat) (hc1 : b.col_size ≤ c) (hc2 : c < packedColSize p b) :
    ∀ m s, (packRows body b.row_start (i + 1 + m) s).out (i * p.bcol + c) = 0 := by
  intro m
  induction m with
  | zero =>
    intro s
    show (body (b.row_start + i) (packRows body b.row_start i s)).out (i * p.bcol + c) = 0
    have h := hbodyZero (b.row_start + i) (packRows body b.row_start i s) c hc1 hc2
    have hsub : b.row_start + i - b.row_start = i := by omega
    rw [hsub] at h
    exact h
  | succ m ih =>
    intro s
    show (body (b.row_start + (i + 1 + m))
      (packRows body b.row_start (i + 1 + m) s)).out (i * p.bcol + c) = 0
    rw [hbodyFrame]
    · exact ih s
    · intro t ht
      have hsub : b.row_start + (i + 1 + m) - b.row_start = i + 1 + m := by omega
      rw [hsub]
      have hcb : c < p.bcol := lt_of_lt_of_le hc2 (le_trans (le_max_right _ _) hW)
      have htb : t < p.bcol := lt_of_lt_of_le ht hW
      exact stripe_ne p.bcol i (i + 1 + m) c t hcb htb (by omega)

/-! ### Claims C1, C2, C5, C9, C10 -/

/-- C1: for every `pack` call with `col_start == 0` satisfying the
preconditions, the row-offset entry `i` afterwards equals the exact integer
sum of the source elements of logical row `row_start + i` over columns
`[0, col_size)`, in both the direct and the transposed layout mode. -/
theorem c1_rowoffset_exact (p : PackParams) (b : BlockType) (s : PackState)
    (hpre : packPre p b) (h0 : b.col_start = 0) (hsz : b.col_size ≤ 2 ^ 26)
    (i : Nat) (hi : i < b.row_size) :
    (pack p b s).rob i
      = ∑ t ∈ Finset.range b.col_size, srcElem p (b.row_start + i) t := by
  rw [pack_rob_char p b s i hsz hi, h0]
  simp

/-- Witness for C1: a transposed-mode pack of a concrete matrix. -/
theorem c1_rowoffset_exact_witness :
    (packPre ⟨true, testMat, 7, 4, 8, 2⟩ ⟨0, 2, 0, 3⟩ ∧ (3 : Nat) ≤ 2 ^ 26 ∧ 1 < 2) ∧
      (pack ⟨true, testMat, 7, 4, 8, 2⟩ ⟨0, 2, 0, 3⟩ zeroState).rob 1
        = ∑ t ∈ Finset.range 3, srcElem ⟨true, testMat, 7, 4, 8, 2⟩ (0 + 1) t :=
  ⟨⟨by unfold packPre; decide, by decide, by decide⟩,
    c1_rowoffset_exact ⟨true, testMat, 7, 4, 8, 2⟩ ⟨0, 2, 0, 3⟩ zeroState
      (by unfold packPre; decide) rfl (by decide) 1 (by decide)⟩

/-- C2: packing columns `[0, k1)` then `[k1, k1 + k2)` for the same row tile
leaves the row-offset entries below `row_size` equal to a single pack of
`[0, k1 + k2)`: the `col_start != 0` call accumulates onto the existing
entry, the `col_start == 0` call overwrites it. -/
theorem c2_column_split_accumulates (p : PackParams) (rs rsz k1 k2 : Nat)
    (s : PackState) (hsz : k1 + k2 ≤ 2 ^ 26) (i : Nat) (hi : i < rsz) :
    (pack p ⟨rs, rsz, k1, k2⟩ (pack p ⟨rs, rsz, 0, k1⟩ s)).rob i
      = (pack p ⟨rs, rsz, 0, k1 + k2⟩ s).rob i := by
  rw [pack_rob_char p ⟨rs, rsz, k1, k2⟩ _ i (by show k2 ≤ 2 ^ 26; omega) hi,
    pack_rob_char p ⟨rs, rsz, 0, k1⟩ s i (by show k1 ≤ 2 ^ 26; omega) hi,
    pack_rob_char p ⟨rs, rsz, 0, k1 + k2⟩ s i (by show k1 + k2 ≤ 2 ^ 26; omega) hi]
  dsimp only
  by_cases hk : k1 = 0
  · subst hk
    simp
  · simp [hk, Finset.sum_range_add]

/-- Witness for C2: a concrete split `[0,2)` then `[2,5)` against `[0,5)`. -/
theorem c2_column_split_accumulates_witness :
    ((2 : Nat) + 3 ≤ 2 ^ 26 ∧ 1 < 2) ∧
      (pack ⟨false, testMat, 10, 4, 8, 2⟩ ⟨0, 2, 2, 3⟩
          (pack ⟨false, testMat, 10, 4, 8, 2⟩ ⟨0, 2, 0, 2⟩ zeroState)).rob 1
        = (pack ⟨false, testMat, 10, 4, 8, 2⟩ ⟨0, 2, 0, 2 + 3⟩ zeroState).rob 1 :=
  ⟨⟨by decide, by decide⟩,
    c2_column_split_accumulates ⟨false, testMat, 10, 4, 8, 2⟩ 0 2 2 3 zeroState
      (by decide) 1 (by decide)⟩

/-- C5: every tile entry of a packed row at a column index in
`[col_size, padded_col_size)` is exactly zero, in both layout modes, and the
interleave-rounded `padded_col_size` does not exceed the tile width. -/
theorem c5_zero_padding (p : PackParams) (b : BlockType) (s : PackState)
    (hI : 0 < p.rowInterleave) (hdvd : p.rowInterleave ∣ p.bcol)
    (hcs : b.col_size ≤ p.bcol) (i : Nat) (hi : i < b.row_size)
    (c : Nat) (hc1 : b.col_size ≤ c) (hc2 : c < packedColSize p b) :
    packedColSize p b ≤ p.bcol ∧ (pack p b s).out (i * p.bcol + c) = 0 := by
  have hbp : packedColSize p b ≤ p.bcol :=
    roundUp_le_of_dvd b.col_size p.rowInterleave p.bcol hI hdvd hcs
  have hW : max b.col_size (packedColSize p b) ≤ p.bcol := max_le hcs hbp
  refine ⟨hbp, ?_⟩
  obtain ⟨m, hm⟩ : ∃ m, b.row_size = i + 1 + m := ⟨b.row_size - (i + 1), by omega⟩
  unfold pack
  cases hp : p.trans
  · rw [if_neg (by simp), hm]
    exact packRows_padding_zero p b (packRowDir p b) hW (packRowDir_out_pres p b)
      (packRowDir_out_zero p b) i c hc1 hc2 m s
  · rw [if_pos rfl, hm]
    exact packRows_padding_zero p b (packRowTr p b) hW (packRowTr_out_pres p b)
      (packRowTr_out_zero p b) i c hc1 hc2 m s

/-- Witness for C5: the padding column of a concrete transposed-mode pack. -/
theorem c5_zero_padding_witness :
    ((0 : Nat) < 2 ∧ (2 : Nat) ∣ 8 ∧ (3 : Nat) ≤ 8 ∧ 1 < 2 ∧ (3 : Nat) ≤ 3 ∧
        3 < packedColSize ⟨true, testMat, 7, 4, 8, 2⟩ ⟨0, 2, 0, 3⟩) ∧
      packedColSize ⟨true, testMat, 7, 4, 8, 2⟩ ⟨0, 2, 0, 3⟩ ≤ 8 ∧
      (pack ⟨true, testMat, 7, 4, 8, 2⟩ ⟨0, 2, 0, 3⟩ zeroState).out (1 * 8 + 3) = 0 :=
  ⟨⟨by decide, by decide, by decide, by decide, by decide, by decide⟩,
    c5_zero_padding ⟨true, testMat, 7, 4, 8, 2⟩ ⟨0, 2, 0, 3⟩ zeroState
      (by decide) (by decide) (by decide) 1 (by decide) 3 (by decide) (by decide)⟩

/-- C9: with `col_start == 0` the produced tile contents and the row-offset
entries below `row_size` do not depend on the prior contents of the
row-offset buffer, because `pack` never reads it in that case. -/
theorem c9_rob_initial_independence (p : PackParams) (b : BlockType)
    (o : Nat → U8) (r1 r2 : Nat → Int) (h0 : b.col_start = 0) :
    (pack p b ⟨o, r1⟩).out = (pack p b ⟨o, r2⟩).out
      ∧ ∀ i, i < b.row_size → (pack p b ⟨o, r1⟩).rob i = (pack p b ⟨o, r2⟩).rob i := by
  unfold pack
  cases hp : p.trans
  · rw [if_neg (by simp : ¬(false = true)), if_neg (by simp : ¬(false = true))]
    refine ⟨packRows_out_indep (packRowDir p b) b.row_start
      (fun _ _ _ _ => rfl) b.row_size o r1 r2, ?_⟩
    intro i hi
    rw [packRows_rob b (packRowDir p b)
        (fun j => scalarRemSum p b j
          + ∑ k ∈ Finset.range 8, sumVecLane p b j (b.col_size / 32) k)
        (packRowDir_rob_shape p b) b.row_size ⟨o, r1⟩ i,
      packRows_rob b (packRowDir p b)
        (fun j => scalarRemSum p b j
          + ∑ k ∈ Finset.range 8, sumVecLane p b j (b.col_size / 32) k)
        (packRowDir_rob_shape p b) b.row_size ⟨o, r2⟩ i,
      if_pos hi, if_pos hi]
    simp [h0]
  · rw [if_pos (rfl : (true = true)), if_pos (rfl : (true = true))]
    refine ⟨packRows_out_indep (packRowTr p b) b.row_start
      (fun _ _ _ _ => rfl) b.row_size o r1 r2, ?_⟩
    intro i hi
    rw [packRows_rob b (packRowTr p b)
        (fun j => ∑ t ∈ Finset.range b.col_size, byte p (j + p.ld * (b.col_start + t)))
        (packRowTr_rob_shape p b) b.row_size ⟨o, r1⟩ i,
      packRows_rob b (packRowTr p b)
        (fun j => ∑ t ∈ Finset.range b.col_size, byte p (j + p.ld * (b.col_start + t)))
        (packRowTr_rob_shape p b) b.row_size ⟨o, r2⟩ i,
      if_pos hi, if_pos hi]
    simp [h0]

/-- Witness for C9 at two differing initial row-offset buffers. -/
theorem c9_rob_initial_independence_witness :
    (pack ⟨false, testMat, 10, 4, 8, 2⟩ ⟨0, 2, 0, 3⟩ ⟨fun _ => 37, fun _ => 3⟩).out 2
        = (pack ⟨false, testMat, 10, 4, 8, 2⟩ ⟨0, 2, 0, 3⟩ ⟨fun _ => 37, fun _ => 9⟩).out 2
      ∧ (pack ⟨false, testMat, 10, 4, 8, 2⟩ ⟨0, 2, 0, 3⟩ ⟨fun _ => 37, fun _ => 3⟩).rob 0
        = (pack ⟨false, testMat, 10, 4, 8, 2⟩ ⟨0, 2, 0, 3⟩ ⟨fun _ => 37, fun _ => 9⟩).rob 0 :=
  ⟨congrFun (c9_rob_initial_independence ⟨false, testMat, 10, 4, 8, 2⟩ ⟨0, 2, 0, 3⟩
      (fun _ => 37) (fun _ => 3) (fun _ => 9) rfl).1 2,
    (c9_rob_initial_independence ⟨false, testMat, 10, 4, 8, 2⟩ ⟨0, 2, 0, 3⟩
      (fun _ => 37) (fun _ => 3) (fun _ => 9) rfl).2 0 (by decide)⟩

/-- C10: `pack` writes only tile rows and row-offset entries below
`row_size`; every tile element from row `row_size` on and every row-offset
entry at index at least `row_size` keeps its prior value, in both modes. -/
theorem c10_frame_untouched (p : PackParams) (b : BlockType) (s : PackState)
    (hI : 0 < p.rowInterleave) (hdvd : p.rowInterleave ∣ p.bcol)
    (hcs : b.col_size ≤ p.bcol) :
    (∀ idx, b.row_size * p.bcol ≤ idx → (pack p b s).out idx = s.out idx)
      ∧ ∀ q, b.row_size ≤ q → (pack p b s).rob q = s.rob q := by
  have hbp : packedColSize p b ≤ p.bcol :=
    roundUp_le_of_dvd b.col_size p.rowInterleave p.bcol hI hdvd hcs
  have hW : max b.col_size (packedColSize p b) ≤ p.bcol := max_le hcs hbp
  unfold pack
  cases hp : p.trans
  · rw [if_neg (by simp)]
    refine ⟨?_, ?_⟩
    · intro idx hidx
      exact packRows_out_pres p b (packRowDir p b) (packRowDir_out_pres p b) hW
        b.row_size (le_refl _) s idx hidx
    · intro q hq
      rw [packRows_rob b (packRowDir p b)
        (fun j => scalarRemSum p b j
          + ∑ k ∈ Finset.range 8, sumVecLane p b j (b.col_size / 32) k)
        (packRowDir_rob_shape p b) b.row_size s q, if_neg (by omega)]
  · rw [if_pos rfl]
    refine ⟨?_, ?_⟩
    · intro idx hidx
      exact packRows_out_pres p b (packRowTr p b) (packRowTr_out_pres p b) hW
        b.row_size (le_refl _) s idx hidx
    · intro q hq
      rw [packRows_rob b (packRowTr p b)
        (fun j => ∑ t ∈ Finset.range b.col_size, byte p (j + p.ld * (b.col_start + t)))
        (packRowTr_rob_shape p b) b.row_size s q, if_neg (by omega)]

/-- Witness for C10 at a concrete out-of-range index and entry. -/
theorem c10_frame_untouched_witness :
    (pack ⟨false, testMat, 10, 4, 8, 2⟩ ⟨0, 2, 0, 3⟩ ⟨fun _ => 37, fun _ => 5⟩).out 16
        = 37
      ∧ (pack ⟨false, testMat, 10, 4, 8, 2⟩ ⟨0, 2, 0, 3⟩ ⟨fun _ => 37, fun _ => 5⟩).rob 3
        = 5 :=
  ⟨(c10_frame_untouched ⟨false, testMat, 10, 4, 8, 2⟩ ⟨0, 2, 0, 3⟩
      ⟨fun _ => 37, fun _ => 5⟩ (by decide) (by decide) (by decide)).1 16 (by decide),
    (c10_frame_untouched ⟨false, testMat, 10, 4, 8, 2⟩ ⟨0, 2, 0, 3⟩
      ⟨fun _ => 37, fun _ => 5⟩ (by decide) (by decide) (by decide)).2 3 (by decide)⟩

/-! ### Claim C3: transposed mode agrees with direct mode on the transpose -/

/-- The transposed value writes and the direct `memcpy` produce the same
buffer when the two packers read equal values at corresponding offsets. -/
lemma trWrite_copy_eq (pT pD : PackParams) (b : BlockType) (i : Nat)
    (out : Nat → U8) (hbcol : pT.bcol = pD.bcol)
    (hv : ∀ n, n < b.col_size →
      pT.smat (i + pT.ld * (b.col_start + n)) = pD.smat (i * pD.ld + (b.col_start + n))) :
    ∀ n, n ≤ b.col_size → trWriteRow pT b i out n = copyRow pD b i out n := by
  intro n
  induction n with
  | zero =>
    intro _
    rfl
  | succ m ih =>
    intro hm
    simp only [trWriteRow, copyRow]
    rw [ih (by omega), hbcol, hv m (by omega)]

/-- Zero filling depends on the packer only through the tile width. -/
lemma zeroFillRow_congr (p1 p2 : PackParams) (bufIdx lo : Nat) (o1 o2 : Nat → U8)
    (hbcol : p1.bcol = p2.bcol) (ho : o1 = o2) :
    ∀ n, zeroFillRow p1 bufIdx lo o1 n = zeroFillRow p2 bufIdx lo o2 n := by
  intro n
  induction n with
  | zero => exact ho
  | succ m ih =>
    simp only [zeroFillRow]
    rw [ih, hbcol]

/-- One transposed row body coincides with one direct row body whenever the
two packers share the tile geometry and read equal values. -/
lemma packRow_tr_dir_eq (pT pD : PackParams) (b : BlockType) (i : Nat)
    (s : PackState) (hsz : b.col_size ≤ 2 ^ 26)
    (hbcol : pT.bcol = pD.bcol) (hIeq : pT.rowInterleave = pD.rowInterleave)
    (hv : ∀ n, n < b.col_size →
      pT.smat (i + pT.ld * (b.col_start + n)) = pD.smat (i * pD.ld + (b.col_start + n))) :
    packRowTr pT b i s = packRowDir pD b i s := by
  have hpc : packedColSize pT b = packedColSize pD b := by
    unfold packedColSize roundUp
    rw [hIeq]
  refine PackState.ext ?_ ?_
  · show zeroFillRow pT (i - b.row_start) b.col_size
        (trWriteRow pT b i s.out b.col_size) (packedColSize pT b - b.col_size)
      = zeroFillRow pD (i - b.row_start) b.col_size
        (copyRow pD b i s.out b.col_size) (packedColSize pD b - b.col_size)
    rw [hpc]
    exact zeroFillRow_congr pT pD _ _ _ _ hbcol
      (trWrite_copy_eq pT pD b i s.out hbcol hv b.col_size (le_refl _)) _
  · show upd s.rob (i - b.row_start) (trRowSum pT b s.rob i)
      = upd s.rob (i - b.row_start) (dirRowSum pD b s.rob i)
    have h4 := c4_chunked_sum_matches_naive pD b i hsz
    unfold chunkedRowSum naiveRowSum at h4
    have hsum : ∑ t ∈ Finset.range b.col_size, byte pT (i + pT.ld * (b.col_start + t))
        = scalarRemSum pD b i
          + ∑ k ∈ Finset.range 8, sumVecLane pD b i (b.col_size / 32) k := by
      rw [h4]
      refine Finset.sum_congr rfl fun t ht => ?_
      have htb := Finset.mem_range.mp ht
      unfold byte
      exact congrArg (fun v : U8 => ((v : Nat) : Int)) (hv t htb)
    have hval : trRowSum pT b s.rob i = dirRowSum pD b s.rob i := by
      unfold trRowSum dirRowSum
      rw [hsum]
      ring
    rw [hval]

/-- The whole row loops coincide under the same hypotheses. -/
lemma packRows_tr_dir_eq (pT pD : PackParams) (b : BlockType)
    (hsz : b.col_size ≤ 2 ^ 26) (hbcol : pT.bcol = pD.bcol)
    (hIeq : pT.rowInterleave = pD.rowInterleave)
    (hv : ∀ r n, b.row_start ≤ r → r < b.row_start + b.row_size → n < b.col_size →
      pT.smat (r + pT.ld * (b.col_start + n)) = pD.smat (r * pD.ld + (b.col_start + n))) :
    ∀ n, n ≤ b.row_size → ∀ s, packRows (packRowTr pT b) b.row_start n s
      = packRows (packRowDir pD b) b.row_start n s := by
  intro n
  induction n with
  | zero =>
    intro _ s
    rfl
  | succ m ih =>
    intro hm s
    simp only [packRows]
    rw [ih (by omega) s]
    exact packRow_tr_dir_eq pT pD b (b.row_start + m) _ hsz hbcol hIeq
      (fun t ht => hv (b.row_start + m) t (by omega) (by omega) ht)

/-- C3: packing a matrix in transposed mode produces, for the same block
descriptor, exactly the tile contents and row-offset entries of packing its
transpose in direct mode, when the direct packer's matrix and stride read
the same values at every coordinate of the block. -/
theorem c3_transposed_equals_direct_on_transpose (smat smatT : Nat → U8)
    (ld ldT brow bcol I : Nat) (b : BlockType) (s : PackState)
    (hsz : b.col_size ≤ 2 ^ 26)
    (h : ∀ i j, b.row_start ≤ i → i < b.row_start + b.row_size →
      b.col_start ≤ j → j < b.col_start + b.col_size →
      smatT (i * ldT + j) = smat (i + ld * j)) :
    pack ⟨true, smat, ld, brow, bcol, I⟩ b s
      = pack ⟨false, smatT, ldT, brow, bcol, I⟩ b s := by
  unfold pack
  rw [if_pos (rfl : ((⟨true, smat, ld, brow, bcol, I⟩ : PackParams).trans = true)),
    if_neg (by simp : ¬((⟨false, smatT, ldT, brow, bcol, I⟩ : PackParams).trans = true))]
  exact packRows_tr_dir_eq ⟨true, smat, ld, brow, bcol, I⟩
    ⟨false, smatT, ldT, brow, bcol, I⟩ b hsz rfl rfl
    (fun r n hr1 hr2 hn => (h r (b.col_start + n) hr1 hr2 (by omega) (by omega)).symm)
    b.row_size (le_refl _) s

/-- Witness for C3: both packings of a concrete matrix coincide. -/
theorem c3_transposed_equals_direct_witness :
    pack ⟨true, testMat, 1, 4, 8, 2⟩ ⟨0, 2, 0, 3⟩ zeroState
      = pack ⟨false, testMat, 1, 4, 8, 2⟩ ⟨0, 2, 0, 3⟩ zeroState :=
  c3_transposed_equals_direct_on_transpose testMat testMat 1 1 4 8 2 ⟨0, 2, 0, 3⟩
    zeroState (by decide)
    (fun i j h1 h2 h3 h4 => congrArg testMat (by omega))
